import Mathlib

/-!
Shallow embedding of the dataset readers in
`tell/data/dataset_readers/nytimes_names_copy.py` (and the shared
skip-on-missing-image pattern of `goodnews_rare.py`), together with proofs
of the specified properties of the proper-name span extractor
(`_get_proper_names`), the offset flattener (`_flatten_name_indices`),
and the context window builder (the per-image-position loop of `_read`).
-/

namespace TellSpec

/-- One part-of-speech annotation of `section['parts_of_speech']`:
surface text, tag, and half-open character span.  `stop` embeds the
Python key `end` (a Lean keyword). -/
structure PosTag where
  pos : String
  text : String
  start : Nat
  stop : Nat
deriving Repr, DecidableEq

/-- One entry of `article['parsed_section']`: its `type`, raw `text`,
image `hash` and part-of-speech annotations. -/
structure Sect where
  type : String
  text : String
  hash : String
  partsOfSpeech : List PosTag
deriving Repr, DecidableEq

/-- Python's `str.strip()`: drop leading and trailing whitespace. -/
def pyStrip (s : String) : String :=
  ⟨((s.data.dropWhile Char.isWhitespace).reverse.dropWhile
      Char.isWhitespace).reverse⟩

/-- The truth value of `not self.rare_names or pos['text'] in self.rare_names`
in `_get_proper_names`.  `none` embeds `rare_names = None`; by Python
truthiness, an empty set is also falsy, so `not self.rare_names` is `True`
for both `None` and the empty set. -/
def nameOk (rare : Option (List String)) (t : String) : Bool :=
  match rare with
  | none => true
  | some s => s.isEmpty || s.contains t

/-- The loop state of `_get_proper_names`: the pending span's `start`/`end`
(only meaningful while `isMiddle` is set, exactly as in the Python, where
`start`/`end` are only read under `is_middle`), the `is_middle` flag, and
the accumulated `name_indices`. -/
structure NameState where
  start : Nat
  stop : Nat
  isMiddle : Bool
  acc : List (Nat × Nat)
deriving Repr, DecidableEq

/-- One iteration of the `for pos in parts_of_speech` loop of
`_get_proper_names`. -/
def nameStep (rare : Option (List String)) (s : NameState) (p : PosTag) : NameState :=
  if p.pos = "PROPN" then
    if s.isMiddle then
      { s with stop := p.stop }
    else if nameOk rare p.text then
      { s with start := p.start, stop := p.stop, isMiddle := true }
    else s
  else if s.isMiddle then
    { s with acc := s.acc ++ [(s.start, s.stop)], isMiddle := false }
  else s

/-- `_get_proper_names` on a raw token list: fold the loop body over the
annotations and return the accumulated `name_indices`.  An open span left
at the end of the list is dropped, exactly as in the source. -/
def properNames (rare : Option (List String)) (ps : List PosTag) : List (Nat × Nat) :=
  (ps.foldl (nameStep rare) ⟨0, 0, false, []⟩).acc

/-- `_get_proper_names` applied to a section. -/
def getProperNames (rare : Option (List String)) (sec : Sect) : List (Nat × Nat) :=
  properNames rare sec.partsOfSpeech

/-- The derivation of `self.rare_names` in `__init__`:
`set([w for w in counter if counter[w] < threshold])`, with the combined
counter `counters['context'] + counters['caption']` given as an
association list from token to count. -/
def rareNamesOf (counter : List (String × Nat)) (threshold : Nat) : List String :=
  (counter.filter (fun wc => wc.2 < threshold)).map (fun wc => wc.1)

/-- The inner accumulation of `_flatten_name_indices`, with the running
`offset`; each paragraph advances the offset by `len(par) + 1` (newline). -/
def flattenGo : Nat → List (String × List (Nat × Nat)) → List (Nat × Nat)
  | _, [] => []
  | offset, (par, idxList) :: rest =>
      idxList.map (fun se => (se.1 + offset, se.2 + offset)) ++
        flattenGo (offset + par.length + 1) rest

/-- `_flatten_name_indices(paragraphs, indices)`: `zip` truncates to the
shorter list, exactly as Python's `zip`. -/
def flattenNameIndices (paragraphs : List String)
    (indices : List (List (Nat × Nat))) : List (Nat × Nat) :=
  flattenGo 0 (paragraphs.zip indices)

/-- The global offset of paragraph `i`: the sum of `len(p) + 1` over the
earlier paragraphs (spec-side description of the running offset). -/
def offsetAt (paragraphs : List String) (i : Nat) : Nat :=
  ((paragraphs.take i).map (fun p => p.length + 1)).sum

/-- Spec-side description of the flattener: paragraph `i`'s local spans,
shifted by `offsetAt`, concatenated in paragraph order. -/
def flattenSpec (paragraphs : List String)
    (indices : List (List (Nat × Nat))) : List (Nat × Nat) :=
  (List.range (min paragraphs.length indices.length)).flatMap
    (fun i => (indices.getD i []).map
      (fun se => (se.1 + offsetAt paragraphs i, se.2 + offsetAt paragraphs i)))

/-- `sections[m]['type'] == 'paragraph'` for a natural index, false when out
of range (the embedding only evaluates this under the source's bounds
guards, where the index is in range). -/
def isParIdx (sections : List Sect) (m : Nat) : Bool :=
  match sections.get? m with
  | some sec => sec.type == "paragraph"
  | none => false

/-- `sections[m]['text']` for a natural index (only evaluated in range). -/
def textIdx (sections : List Sect) (m : Nat) : String :=
  match sections.get? m with
  | some sec => sec.text
  | none => ""

/-- `self._get_proper_names(sections[m])` (only evaluated in range). -/
def namesIdx (sections : List Sect) (rare : Option (List String)) (m : Nat) :
    List (Nat × Nat) :=
  match sections.get? m with
  | some sec => getProperNames rare sec
  | none => []

/-- The mutable locals of the symmetric-expansion `while True` loop of
`_read`: the backward/forward collected texts and name lists, the running
token count `n_words`, and the two cursors.  `i` is an `Int` because
`i = pos - 1` may start at `-1` and keeps decreasing in Python. -/
structure LoopState where
  before : List String
  beforeNames : List (List (Nat × Nat))
  after : List String
  afterNames : List (List (Nat × Nat))
  n_words : Nat
  i : Int
  j : Nat
deriving Repr

/-- One iteration of the `while True` loop (lines 144-158): possibly take
the backward paragraph at `i` (guard `i > k`), decrement `i`, possibly take
the forward paragraph at `j` (guard `k < j < len(sections)`), increment
`j`.  Under `k ≤ i` the Python index `sections[i]` is non-negative and the
`Nat` view `i.toNat` coincides with it. -/
def loopBody (tok : String → Nat) (rare : Option (List String))
    (sections : List Sect) (k : Nat) (s : LoopState) : LoopState :=
  let s1 :=
    if (k : Int) < s.i ∧ isParIdx sections s.i.toNat = true then
      { s with before := textIdx sections s.i.toNat :: s.before,
               beforeNames := namesIdx sections rare s.i.toNat :: s.beforeNames,
               n_words := s.n_words + tok (textIdx sections s.i.toNat) }
    else s
  let s2 := { s1 with i := s1.i - 1 }
  let s3 :=
    if k < s2.j ∧ s2.j < sections.length ∧ isParIdx sections s2.j = true then
      { s2 with after := s2.after ++ [textIdx sections s2.j],
                afterNames := s2.afterNames ++ [namesIdx sections rare s2.j],
                n_words := s2.n_words + tok (textIdx sections s2.j) }
    else s2
  { s3 with j := s3.j + 1 }

/-- The loop's exit test (line 160), checked after each iteration:
`n_words >= 510 or (i <= k and j >= len(sections))`. -/
def loopStop (sections : List Sect) (k : Nat) (s : LoopState) : Bool :=
  510 ≤ s.n_words || (decide (s.i ≤ (k : Int)) && decide (sections.length ≤ s.j))

/-- The `while True ... break` loop, run with explicit fuel: `none` means
the fuel was exhausted before the exit test fired (the termination theorem
shows the fuel used by `buildContext` always suffices). -/
def loopGo (tok : String → Nat) (rare : Option (List String))
    (sections : List Sect) (k : Nat) : Nat → LoopState → Option LoopState
  | 0, _ => none
  | fuel + 1, s =>
      let s' := loopBody tok rare sections k s
      if loopStop sections k s' then some s'
      else loopGo tok rare sections k fuel s'

/-- The index `k` left by `for k, section in enumerate(sections)` with its
`break` at the first paragraph: the first paragraph's index, or the last
index of the list when no section is a paragraph (the loop ran to the end
without `break`). -/
def anchorIdx (sections : List Sect) : Nat :=
  match sections.findIdx? (fun sec => sec.type == "paragraph") with
  | some k => k
  | none => sections.length - 1

/-- What the context window builder produces for one image position:
the merged paragraph list `paragraphs + before + after`, the parallel name
lists, the flattened global name indices, the final `n_words`, and the two
collected runs for inspection. -/
structure BuildOut where
  paragraphs : List String
  names : List (List (Nat × Nat))
  nameIndices : List (Nat × Nat)
  n_words : Nat
  before : List String
  after : List String
deriving Repr, DecidableEq

/-- `title = article['headline']['main'].strip()` when the `'main'` key is
present (modelled by `headline = some h`), and `''` otherwise. -/
def titleOf (headline : Option Sect) : String :=
  match headline with
  | some h => pyStrip h.text
  | none => ""

/-- The paragraph list after the `if title:` block (line 122): the stripped
headline alone, or nothing. -/
def headPars (headline : Option Sect) : List String :=
  if titleOf headline = "" then [] else [titleOf headline]

/-- The name list after the `if title:` block:
`self._get_proper_names(article['headline'])`. -/
def headNames (rare : Option (List String)) (headline : Option Sect) :
    List (List (Nat × Nat)) :=
  match headline with
  | some h => if pyStrip h.text = "" then [] else [getProperNames rare h]
  | none => []

/-- `n_words` after the `if title:` block: `len(self.to_token_ids(title))`
when the title is non-empty, else `0`. -/
def headlineCount (tok : String → Nat) (headline : Option Sect) : Nat :=
  if titleOf headline = "" then 0 else tok (titleOf headline)

/-- The text appended by the anchor-search `for k, section` loop: the first
paragraph-type section, or nothing when the article has none. -/
def anchorPars (sections : List Sect) : List String :=
  match sections.find? (fun sec => sec.type == "paragraph") with
  | some sec => [sec.text]
  | none => []

/-- The names appended by the anchor-search loop. -/
def anchorNames (rare : Option (List String)) (sections : List Sect) :
    List (List (Nat × Nat)) :=
  match sections.find? (fun sec => sec.type == "paragraph") with
  | some sec => [getProperNames rare sec]
  | none => []

/-- The loop state on entry to the `while True` loop:
`before = after = []`, `n_words` holds only the headline's count,
`i = pos - 1`, `j = pos + 1`. -/
def initState (tok : String → Nat) (headline : Option Sect) (pos : Nat) :
    LoopState :=
  { before := [], beforeNames := [], after := [], afterNames := [],
    n_words := headlineCount tok headline, i := (pos : Int) - 1, j := pos + 1 }

/-- The context window builder: lines 116-161 and 172-175 of `_read` for a
single image position.  `headline` is `article['headline']` when it has a
`'main'` key (`none` otherwise).  On an empty section list the Python
raises `NameError` (`k` is never assigned), so the embedding returns
`none`; the fuel `sections.length + pos + 1` is proved sufficient for the
loop. -/
def buildContext (tok : String → Nat) (rare : Option (List String))
    (sections : List Sect) (headline : Option Sect) (pos : Nat) :
    Option BuildOut :=
  if sections.isEmpty then none
  else
    match loopGo tok rare sections (anchorIdx sections)
        (sections.length + pos + 1) (initState tok headline pos) with
    | none => none
    | some s =>
        let paragraphs := (headPars headline ++ anchorPars sections) ++
          s.before ++ s.after
        let names := (headNames rare headline ++ anchorNames rare sections) ++
          s.beforeNames ++ s.afterNames
        some { paragraphs := paragraphs, names := names,
               nameIndices := flattenNameIndices paragraphs names,
               n_words := s.n_words, before := s.before, after := s.after }

/-- An article as consumed by `_read` after projection. -/
structure Article where
  sections : List Sect
  imagePositions : List Nat
  headline : Option Sect
  webUrl : String
deriving Repr

/-- The fields of the emitted `Instance` that come from this module's own
logic (tokenisation and image decoding stay external). -/
structure Inst where
  paragraphs : List String
  nameIndices : List (Nat × Nat)
  captionNameIndices : List (Nat × Nat)
  caption : String
  imagePath : String
  pos : Nat
deriving Repr

/-- `os.path.join(self.image_dir, f"{hash}.jpg")`. -/
def imagePathOf (imageDir : String) (sections : List Sect) (pos : Nat) : String :=
  imageDir ++ "/" ++ (match sections.get? pos with
    | some sec => sec.hash
    | none => "") ++ ".jpg"

/-- The body of `for pos in image_positions` for one position: the caption
emptiness check, the context window builder, the `Image.open` attempt
(modelled by the oracle `loadImage`, `false` meaning `FileNotFoundError`
or `OSError`), and the assembly of the instance.  Every `continue` of the
source is a `none` here: no instance, no error surfaced. -/
def processPos (tok : String → Nat) (rare : Option (List String))
    (loadImage : String → Bool) (imageDir : String)
    (article : Article) (pos : Nat) : Option Inst :=
  match article.sections.get? pos with
  | none => none
  | some capSec =>
    let caption := pyStrip capSec.text
    if caption = "" then none
    else
      match buildContext tok rare article.sections article.headline pos with
      | none => none
      | some r =>
        let imagePath := imagePathOf imageDir article.sections pos
        if loadImage imagePath then
          some { paragraphs := r.paragraphs, nameIndices := r.nameIndices,
                 captionNameIndices := getProperNames rare capSec,
                 caption := caption, imagePath := imagePath, pos := pos }
        else none

/-- The instances one article contributes: one per image position whose
processing succeeds, failing positions skipped silently. -/
def readArticle (tok : String → Nat) (rare : Option (List String))
    (loadImage : String → Bool) (imageDir : String)
    (article : Article) : List Inst :=
  article.imagePositions.filterMap (processPos tok rare loadImage imageDir article)

/-! ### Concrete fixtures used by examples, witnesses and counterexamples -/

/-- "Alice" tagged `PROPN` at characters `[0, 5)`. -/
def aliceTok : PosTag := ⟨"PROPN", "Alice", 0, 5⟩

/-- "Smith" tagged `PROPN` at characters `[6, 11)`. -/
def smithTok : PosTag := ⟨"PROPN", "Smith", 6, 11⟩

/-- A closing punctuation token after "Alice Smith". -/
def dotTok : PosTag := ⟨"PUNCT", ".", 11, 12⟩

/-- "Bob" tagged `PROPN` at characters `[0, 3)`. -/
def bobTok : PosTag := ⟨"PROPN", "Bob", 0, 3⟩

/-- "Smith" tagged `PROPN` at characters `[4, 9)`. -/
def smithTok2 : PosTag := ⟨"PROPN", "Smith", 4, 9⟩

/-- A closing punctuation token after "Bob Smith". -/
def dotTok2 : PosTag := ⟨"PUNCT", ".", 9, 10⟩

/-! ### Helper lemmas about one step of `_get_proper_names` -/

/-- A `PROPN` token while a span is open extends the pending end. -/
theorem nameStep_propn_extend {rare : Option (List String)} {s : NameState}
    {p : PosTag} (h1 : p.pos = "PROPN") (h2 : s.isMiddle = true) :
    nameStep rare s p = { s with stop := p.stop } := by
  simp [nameStep, h1, h2]

/-- A filter-passing `PROPN` token while no span is open opens one. -/
theorem nameStep_propn_open {rare : Option (List String)} {s : NameState}
    {p : PosTag} (h1 : p.pos = "PROPN") (h2 : s.isMiddle = false)
    (h3 : nameOk rare p.text = true) :
    nameStep rare s p =
      { s with start := p.start, stop := p.stop, isMiddle := true } := by
  simp [nameStep, h1, h2, h3]

/-- A filter-failing `PROPN` token while no span is open changes nothing. -/
theorem nameStep_propn_skip {rare : Option (List String)} {s : NameState}
    {p : PosTag} (h1 : p.pos = "PROPN") (h2 : s.isMiddle = false)
    (h3 : nameOk rare p.text = false) :
    nameStep rare s p = s := by
  simp [nameStep, h1, h2, h3]

/-- A non-`PROPN` token while a span is open closes and flushes it. -/
theorem nameStep_other_close {rare : Option (List String)} {s : NameState}
    {p : PosTag} (h1 : p.pos ≠ "PROPN") (h2 : s.isMiddle = true) :
    nameStep rare s p =
      { s with acc := s.acc ++ [(s.start, s.stop)], isMiddle := false } := by
  simp [nameStep, h1, h2]

/-- A non-`PROPN` token while no span is open changes nothing. -/
theorem nameStep_other_skip {rare : Option (List String)} {s : NameState}
    {p : PosTag} (h1 : p.pos ≠ "PROPN") (h2 : s.isMiddle = false) :
    nameStep rare s p = s := by
  simp [nameStep, h1, h2]

/-- `PROPN` tokens never change the accumulated output, whatever the state;
hence folding any all-`PROPN` list leaves the output untouched. -/
theorem foldl_acc_propn (rare : Option (List String)) :
    ∀ (run : List PosTag), (∀ t ∈ run, t.pos = "PROPN") →
      ∀ s : NameState, (run.foldl (nameStep rare) s).acc = s.acc := by
  intro run
  induction run with
  | nil => intro _ s; rfl
  | cons t ts ih =>
      intro h s
      have ht : t.pos = "PROPN" := h t (by simp)
      have hacc : (nameStep rare s t).acc = s.acc := by
        rcases hm : s.isMiddle with _ | _
        · rcases hok : nameOk rare t.text with _ | _
          · rw [nameStep_propn_skip ht hm hok]
          · rw [nameStep_propn_open ht hm hok]
        · rw [nameStep_propn_extend ht hm]
      rw [List.foldl_cons, ih (fun u hu => h u (List.mem_cons_of_mem t hu)),
        hacc]

/-! ### Claim theorems: the span extractor's opening policy -/

/-- C1: the extractor opens a new span at a `PROPN` token only when no
span is open and the token passes the filter (`nameOk`, which is true when
`rare_names` is `None` — and, by Python truthiness, when it is the empty
set); once open, every consecutive `PROPN` token extends the span's end
regardless of filter membership.  With filter `{"Alice"}`, the closed run
"Alice Smith" yields one span covering both tokens, while "Bob Smith"
yields none. -/
theorem c1_filter_opening_policy :
    (∀ (rare : Option (List String)) (s : NameState) (p : PosTag),
        p.pos = "PROPN" → s.isMiddle = false → nameOk rare p.text = false →
        nameStep rare s p = s) ∧
    (∀ (rare : Option (List String)) (s : NameState) (p : PosTag),
        p.pos = "PROPN" → s.isMiddle = false → nameOk rare p.text = true →
        nameStep rare s p =
          { s with start := p.start, stop := p.stop, isMiddle := true }) ∧
    (∀ (rare : Option (List String)) (s : NameState) (p : PosTag),
        p.pos = "PROPN" → s.isMiddle = true →
        nameStep rare s p = { s with stop := p.stop }) ∧
    properNames (some ["Alice"]) [aliceTok, smithTok, dotTok] = [(0, 11)] ∧
    properNames (some ["Alice"]) [bobTok, smithTok2, dotTok2] = [] := by
  refine ⟨?_, ?_, ?_, by decide, by decide⟩
  · intro rare s p h1 h2 h3; exact nameStep_propn_skip h1 h2 h3
  · intro rare s p h1 h2 h3; exact nameStep_propn_open h1 h2 h3
  · intro rare s p h1 h2; exact nameStep_propn_extend h1 h2

/-- Witness for C1 at concrete inputs. -/
theorem c1_filter_opening_policy_witness :
    nameStep (some ["Alice"]) ⟨0, 0, false, []⟩ bobTok = ⟨0, 0, false, []⟩ ∧
    nameStep (some ["Alice"]) ⟨0, 0, false, []⟩ aliceTok = ⟨0, 5, true, []⟩ ∧
    nameStep (some ["Alice"]) ⟨0, 5, true, []⟩ smithTok = ⟨0, 11, true, []⟩ :=
  ⟨c1_filter_opening_policy.1 (some ["Alice"]) ⟨0, 0, false, []⟩ bobTok
      rfl rfl (by decide),
   c1_filter_opening_policy.2.1 (some ["Alice"]) ⟨0, 0, false, []⟩ aliceTok
      rfl rfl (by decide),
   c1_filter_opening_policy.2.2.1 (some ["Alice"]) ⟨0, 5, true, []⟩ smithTok
      rfl rfl⟩

/-- C2: a proper-noun run that reaches the end of the token sequence is
dropped: appending any all-`PROPN` suffix to a token list never adds an
output span.  In particular the bare sequence "Alice Smith" (both `PROPN`,
no filter) yields no span at all. -/
theorem c2_open_span_dropped_at_end :
    (∀ (rare : Option (List String)) (toks run : List PosTag),
        (∀ t ∈ run, t.pos = "PROPN") →
        properNames rare (toks ++ run) = properNames rare toks) ∧
    properNames none [aliceTok, smithTok] = [] := by
  refine ⟨?_, by decide⟩
  intro rare toks run h
  unfold properNames
  rw [List.foldl_append]
  exact foldl_acc_propn rare run h _

/-- Witness for C2 at concrete inputs. -/
theorem c2_open_span_dropped_at_end_witness :
    properNames none ([dotTok] ++ [aliceTok]) = properNames none [dotTok] :=
  c2_open_span_dropped_at_end.1 none [dotTok] [aliceTok] (by decide)

/-- C10: an empty derived rare-name set is indistinguishable from an
absent one.  `not self.rare_names` is `True` both for `None` and for the
empty set, so when every counted token reaches the threshold the derived
set is empty and `_get_proper_names` behaves exactly as with no filter. -/
theorem c10_empty_rare_set_like_none :
    (∀ toks : List PosTag,
        properNames (some []) toks = properNames none toks) ∧
    (∀ (toks : List PosTag) (counter : List (String × Nat)) (threshold : Nat),
        (∀ wc ∈ counter, threshold ≤ wc.2) →
        properNames (some (rareNamesOf counter threshold)) toks =
          properNames none toks) := by
  have hstep : nameStep (some ([] : List String)) = nameStep none := by
    funext s p
    simp [nameStep, nameOk]
  constructor
  · intro toks
    unfold properNames
    rw [hstep]
  · intro toks counter threshold h
    have hfil : counter.filter (fun wc => wc.2 < threshold) = [] := by
      rw [List.filter_eq_nil_iff]
      intro wc hw
      simpa using Nat.not_lt.mpr (h wc hw)
    have : rareNamesOf counter threshold = [] := by
      unfold rareNamesOf
      rw [hfil]
      rfl
    rw [this]
    unfold properNames
    rw [hstep]

/-- Witness for C10 at concrete inputs. -/
theorem c10_empty_rare_set_like_none_witness :
    properNames (some (rareNamesOf [("Alice", 12)] 10))
        [aliceTok, smithTok, dotTok] =
      properNames none [aliceTok, smithTok, dotTok] :=
  c10_empty_rare_set_like_none.2 [aliceTok, smithTok, dotTok]
    [("Alice", 12)] 10 (by decide)

/-! ### Claim theorem: the offset flattener -/

/-- The running-offset accumulation agrees with the closed-form
`offsetAt` description, for any starting offset. -/
theorem flattenGo_eq :
    ∀ (ps : List String) (ls : List (List (Nat × Nat))) (base : Nat),
      flattenGo base (ps.zip ls) =
        (List.range (min ps.length ls.length)).flatMap
          (fun i => (ls.getD i []).map
            (fun se => (se.1 + (base + offsetAt ps i),
                        se.2 + (base + offsetAt ps i)))) := by
  intro ps
  induction ps with
  | nil => intro ls base; simp [flattenGo]
  | cons p ps ih =>
      intro ls base
      cases ls with
      | nil => simp [flattenGo]
      | cons l ls =>
          rw [List.zip_cons_cons]
          rw [flattenGo]
          rw [ih ls (base + p.length + 1)]
          simp only [List.length_cons]
          rw [Nat.succ_min_succ, List.range_succ_eq_map]
          rw [List.flatMap_cons, List.flatMap_map]
          simp only [List.getD_cons_zero, List.getD_cons_succ, offsetAt,
            List.take_zero, List.take_succ_cons, List.map_nil, List.map_cons,
            List.sum_nil, List.sum_cons, Function.comp, Nat.add_zero]
          congr 1
          apply List.flatMap_congr
          intro i _
          congr 1
          funext se
          congr 2 <;> omega

/-- C4: the flattener maps each local span `(start, end)` of paragraph `i`
to `(start + offset_i, end + offset_i)` with `offset_0 = 0` and
`offset_{i+1} = offset_i + len(paragraph_i) + 1`, keeping all spans in
order (paragraph by paragraph, and in order within each paragraph); for
paragraphs `["Hello", "World"]`, local `(0,5)` in paragraph 0 flattens to
`(0,5)` and local `(0,5)` in paragraph 1 flattens to `(6,11)`. -/
theorem c4_offset_flattener :
    (∀ (paragraphs : List String) (indices : List (List (Nat × Nat))),
        flattenNameIndices paragraphs indices =
          flattenSpec paragraphs indices) ∧
    flattenNameIndices ["Hello", "World"] [[(0, 5)], [(0, 5)]] =
      [(0, 5), (6, 11)] := by
  refine ⟨?_, by decide⟩
  intro paragraphs indices
  unfold flattenNameIndices flattenSpec
  rw [flattenGo_eq]
  apply List.flatMap_congr
  intro i _
  simp

/-! ### The expansion loop: projections, termination, inversion -/

/-- The termination measure of the `while True` loop: how far `i` still is
above the anchor plus how far `j` still is below the end. -/
def loopMeasure (len k : Nat) (s : LoopState) : Nat :=
  (s.i - k).toNat + (len - s.j)

/-- Every iteration decrements `i` by exactly one. -/
theorem loopBody_i (tok : String → Nat) (rare : Option (List String))
    (sections : List Sect) (k : Nat) (s : LoopState) :
    (loopBody tok rare sections k s).i = s.i - 1 := by
  unfold loopBody
  dsimp only
  split <;> split <;> rfl

/-- Every iteration increments `j` by exactly one. -/
theorem loopBody_j (tok : String → Nat) (rare : Option (List String))
    (sections : List Sect) (k : Nat) (s : LoopState) :
    (loopBody tok rare sections k s).j = s.j + 1 := by
  unfold loopBody
  dsimp only
  split <;> split <;> rfl

/-- The loop exits within any fuel exceeding the measure: the cursors move
one step per iteration, so the exhaustion condition
`i <= k and j >= len(sections)` fires after at most `loopMeasure` further
iterations even if the budget is never reached. -/
theorem loopGo_some (tok : String → Nat) (rare : Option (List String))
    (sections : List Sect) (k : Nat) :
    ∀ (fuel : Nat) (s : LoopState),
      loopMeasure sections.length k s < fuel →
      ∃ r, loopGo tok rare sections k fuel s = some r := by
  intro fuel
  induction fuel with
  | zero => intro s h; exact absurd h (Nat.not_lt_zero _)
  | succ fuel ih =>
      intro s h
      rw [loopGo]
      by_cases hstop : loopStop sections k (loopBody tok rare sections k s) = true
      · exact ⟨_, by rw [if_pos hstop]⟩
      · have hb : loopStop sections k (loopBody tok rare sections k s) = false :=
          Bool.eq_false_iff.mpr hstop
        rw [if_neg (by simp [hb])]
        apply ih
        have hi := loopBody_i tok rare sections k s
        have hj := loopBody_j tok rare sections k s
        unfold loopStop at hb
        simp only [Bool.or_eq_false_iff, Bool.and_eq_false_iff,
          decide_eq_false_iff_not, not_le] at hb
        unfold loopMeasure at h ⊢
        rw [hi, hj]
        rcases hb with ⟨h1, h2 | h2⟩ <;> omega

/-- Inversion of a successful `buildContext`: the final loop state, and how
the output's fields are assembled from it. -/
theorem buildContext_inv {tok : String → Nat} {rare : Option (List String)}
    {sections : List Sect} {headline : Option Sect} {pos : Nat}
    {out : BuildOut}
    (h : buildContext tok rare sections headline pos = some out) :
    ∃ s, loopGo tok rare sections (anchorIdx sections)
        (sections.length + pos + 1) (initState tok headline pos) = some s ∧
      out.paragraphs = (headPars headline ++ anchorPars sections) ++
        s.before ++ s.after ∧
      out.n_words = s.n_words ∧ out.before = s.before ∧
      out.after = s.after := by
  unfold buildContext at h
  split at h
  · exact absurd h (by simp)
  · split at h
    · exact absurd h (by simp)
    next s hs =>
      refine ⟨s, hs, ?_⟩
      have := Option.some.inj h
      subst this
      exact ⟨rfl, rfl, rfl, rfl⟩

/-- C9: for every non-empty section list and every image position, the
anchor search (a structurally bounded scan) and the symmetric-expansion
loop terminate: the builder, whose loop is run with fuel
`sections.length + pos + 1`, always yields a result, even when no section
of the article is a paragraph. -/
theorem c9_builder_terminates :
    ∀ (tok : String → Nat) (rare : Option (List String))
      (sections : List Sect) (headline : Option Sect) (pos : Nat),
      sections ≠ [] →
      ∃ out, buildContext tok rare sections headline pos = some out := by
  intro tok rare sections headline pos hne
  have hemp : sections.isEmpty = false := by
    simpa [List.isEmpty_iff] using hne
  obtain ⟨r, hr⟩ := loopGo_some tok rare sections (anchorIdx sections)
    (sections.length + pos + 1) (initState tok headline pos) (by
      unfold loopMeasure initState
      dsimp only
      omega)
  have hnn : buildContext tok rare sections headline pos ≠ none := by
    unfold buildContext
    rw [hemp]
    dsimp only
    rw [hr]
    simp
  exact Option.ne_none_iff_exists'.mp hnn

/-- A pathological one-section article with no paragraph anywhere. -/
def secsC9 : List Sect := [⟨"image", "cap", "h9", []⟩]

/-- Witness for C9 on the pathological no-paragraph article. -/
theorem c9_builder_terminates_witness :
    ∃ out, buildContext (fun _ => 1) none secsC9 none 0 = some out :=
  c9_builder_terminates (fun _ => 1) none secsC9 none 0 (by decide)

/-! ### Claim theorem: skip on missing or undecodable image -/

/-- C8: when the image of an (article, position) pair cannot be opened
(`loadImage` is `false` on its path, covering `FileNotFoundError` and
`OSError`), the pair yields no instance at all, and iteration continues
with the remaining positions; nothing else of the output changes and no
error escapes (the reader is a total function into a plain list). -/
theorem c8_skip_missing_image :
    ∀ (tok : String → Nat) (rare : Option (List String))
      (loadImage : String → Bool) (imageDir : String) (article : Article)
      (pos : Nat) (p1 p2 : List Nat),
      loadImage (imagePathOf imageDir article.sections pos) = false →
      processPos tok rare loadImage imageDir article pos = none ∧
      (article.imagePositions = p1 ++ pos :: p2 →
        readArticle tok rare loadImage imageDir article =
          p1.filterMap (processPos tok rare loadImage imageDir article) ++
            p2.filterMap (processPos tok rare loadImage imageDir article)) := by
  intro tok rare loadImage imageDir article pos p1 p2 h
  have hnone : processPos tok rare loadImage imageDir article pos = none := by
    unfold processPos
    split
    · rfl
    next capSec heq =>
      dsimp only
      split
      · rfl
      · split
        · rfl
        next r hb =>
          rw [h]
          rfl
  refine ⟨hnone, ?_⟩
  intro hsplit
  unfold readArticle
  rw [hsplit, List.filterMap_append, List.filterMap_cons, hnone]

/-- A two-section article whose only image is at position 1. -/
def artC8 : Article :=
  { sections := [⟨"paragraph", "A", "", []⟩, ⟨"image", "cap", "h77", []⟩],
    imagePositions := [1], headline := none, webUrl := "u" }

/-- Witness for C8: with an image loader that always fails, the article's
single (article, position) pair yields nothing and the iteration result is
the instances of the surrounding (empty) position lists. -/
theorem c8_skip_missing_image_witness :
    processPos (fun _ => 1) none (fun _ => false) "dir" artC8 1 = none ∧
    readArticle (fun _ => 1) none (fun _ => false) "dir" artC8 =
      List.filterMap (processPos (fun _ => 1) none (fun _ => false) "dir" artC8)
          [] ++
        List.filterMap
          (processPos (fun _ => 1) none (fun _ => false) "dir" artC8) [] := by
  have h := c8_skip_missing_image (fun _ => 1) none (fun _ => false) "dir"
    artC8 1 [] [] rfl
  exact ⟨h.1, h.2 rfl⟩

/-! ### Claim theorems: budget accounting of the expansion loop -/

/-- The tokens the backward branch of one iteration adds to `n_words`:
the current `i` paragraph's count when the guard fires, else nothing. -/
def beforeCost (tok : String → Nat) (sections : List Sect) (k : Nat)
    (s : LoopState) : Nat :=
  if (k : Int) < s.i ∧ isParIdx sections s.i.toNat = true then
    tok (textIdx sections s.i.toNat)
  else 0

/-- The tokens the forward branch of one iteration adds to `n_words`. -/
def afterCost (tok : String → Nat) (sections : List Sect) (k : Nat)
    (s : LoopState) : Nat :=
  if k < s.j ∧ s.j < sections.length ∧ isParIdx sections s.j = true then
    tok (textIdx sections s.j)
  else 0

/-- One iteration adds exactly the costs of the (at most two) paragraphs
it takes: one backward, one forward. -/
theorem loopBody_n_words (tok : String → Nat) (rare : Option (List String))
    (sections : List Sect) (k : Nat) (s : LoopState) :
    (loopBody tok rare sections k s).n_words =
      s.n_words + beforeCost tok sections k s + afterCost tok sections k s := by
  unfold loopBody beforeCost afterCost
  dsimp only
  split <;> split <;> dsimp only <;> omega

/-- One iteration keeps `n_words` in sync with the token sums of the
collected `before`/`after` texts. -/
theorem loopBody_sums (tok : String → Nat) (rare : Option (List String))
    (sections : List Sect) (k : Nat) (s : LoopState) :
    (loopBody tok rare sections k s).n_words +
        (s.before.map tok).sum + (s.after.map tok).sum =
      s.n_words + ((loopBody tok rare sections k s).before.map tok).sum +
        ((loopBody tok rare sections k s).after.map tok).sum := by
  unfold loopBody
  dsimp only
  split <;> split <;> simp [List.sum_append] <;> omega

/-- Across the whole loop, `n_words` grows by exactly the token sums of
the newly collected texts. -/
theorem loopGo_n_words (tok : String → Nat) (rare : Option (List String))
    (sections : List Sect) (k : Nat) :
    ∀ (fuel : Nat) (s r : LoopState),
      loopGo tok rare sections k fuel s = some r →
      r.n_words + (s.before.map tok).sum + (s.after.map tok).sum =
        s.n_words + (r.before.map tok).sum + (r.after.map tok).sum := by
  intro fuel
  induction fuel with
  | zero => intro s r h; exact absurd h (by simp [loopGo])
  | succ fuel ih =>
      intro s r h
      rw [loopGo] at h
      split at h
      · have := Option.some.inj h
        subst this
        exact loopBody_sums tok rare sections k s
      · have h1 := ih _ _ h
        have h2 := loopBody_sums tok rare sections k s
        omega

/-- The loop's final state is one iteration applied to a state that either
is the initial one or had not yet reached the budget: the loop stops
immediately after the iteration that crosses the threshold. -/
theorem loopGo_last (tok : String → Nat) (rare : Option (List String))
    (sections : List Sect) (k : Nat) :
    ∀ (fuel : Nat) (s r : LoopState),
      loopGo tok rare sections k fuel s = some r →
      ∃ p, r = loopBody tok rare sections k p ∧
        (p = s ∨ p.n_words < 510) := by
  intro fuel
  induction fuel with
  | zero => intro s r h; exact absurd h (by simp [loopGo])
  | succ fuel ih =>
      intro s r h
      rw [loopGo] at h
      split at h
      · have := Option.some.inj h
        subst this
        exact ⟨s, rfl, Or.inl rfl⟩
      next hstop =>
        obtain ⟨p, hp, hor⟩ := ih _ _ h
        refine ⟨p, hp, ?_⟩
        rcases hor with hps | hlt
        · right
          have hfalse : loopStop sections k (loopBody tok rare sections k s) =
              false := Bool.eq_false_iff.mpr hstop
          unfold loopStop at hfalse
          simp only [Bool.or_eq_false_iff, decide_eq_false_iff_not,
            not_le] at hfalse
          rw [hps]
          exact hfalse.1
        · exact Or.inr hlt

/-- A constant token counter assigning 5 tokens to every text. -/
def tok5 : String → Nat := fun _ => 5

/-- An article whose anchor paragraph "A" precedes its only image. -/
def secsC5 : List Sect :=
  [⟨"paragraph", "A", "", []⟩, ⟨"image", "cap", "h1", []⟩]

/-- Counterexample to C5 as stated: the anchor paragraph "A" is inserted
into the output context, yet the final running total is `0`, not the `5`
tokens its insertion should have contributed — the `for k, section` block
(lines 138-142) appends the anchor without touching `n_words`. -/
theorem c5_anchor_not_counted_counterexample :
    (buildContext tok5 none secsC5 none 1).map
        (fun o => (o.paragraphs, o.n_words)) = some (["A"], 0) ∧
    tok5 "A" = 5 := by
  exact ⟨by decide, rfl⟩

/-- C5 as amended: every inserted paragraph EXCEPT the anchor paragraph
has its token count added to the running total — the final `n_words` is
exactly the headline's count plus the token sums of the backward- and
forward-collected paragraphs; the anchor paragraph contributes nothing. -/
theorem c5_token_accounting_amended :
    ∀ (tok : String → Nat) (rare : Option (List String))
      (sections : List Sect) (headline : Option Sect) (pos : Nat)
      (out : BuildOut),
      buildContext tok rare sections headline pos = some out →
      out.n_words = headlineCount tok headline +
        (out.before.map tok).sum + (out.after.map tok).sum := by
  intro tok rare sections headline pos out h
  obtain ⟨s, hs, _, hn, hb, ha⟩ := buildContext_inv h
  have := loopGo_n_words tok rare sections (anchorIdx sections) _ _ _ hs
  simp only [initState, List.map_nil, List.sum_nil] at this
  rw [hn, hb, ha]
  omega

/-- What `buildContext` returns on `secsC5`. -/
def outC5 : BuildOut :=
  { paragraphs := ["A"], names := [[]], nameIndices := [], n_words := 0,
    before := [], after := [] }

/-- Witness for the amended C5 at a concrete input. -/
theorem c5_token_accounting_amended_witness :
    outC5.n_words = headlineCount tok5 none +
      (outC5.before.map tok5).sum + (outC5.after.map tok5).sum :=
  c5_token_accounting_amended tok5 none secsC5 none 1 outC5 rfl

/-- A constant token counter assigning 600 tokens to every text. -/
def tok600 : String → Nat := fun _ => 600

/-- An article where the crossing iteration takes one backward paragraph
"B" and one forward paragraph "C" in the same iteration. -/
def secsC6 : List Sect :=
  [⟨"paragraph", "A", "", []⟩, ⟨"paragraph", "B", "", []⟩,
   ⟨"image", "cap", "h2", []⟩, ⟨"paragraph", "C", "", []⟩]

/-- Counterexample to C6 as stated: every paragraph counts 600 tokens, yet
the builder finishes with `n_words = 1200 > 510 + 600` — the crossing
iteration adds one backward AND one forward paragraph before the budget is
checked, so the overshoot can exceed one paragraph's worth. -/
theorem c6_two_paragraph_overshoot_counterexample :
    (buildContext tok600 none secsC6 none 2).map (fun o => o.n_words) =
      some 1200 ∧
    tok600 "A" = 600 ∧ tok600 "B" = 600 ∧ tok600 "C" = 600 ∧
    510 + 600 < 1200 := by
  exact ⟨by decide, rfl, rfl, rfl, by decide⟩

/-- C6 as amended: the builder stops immediately after the iteration that
crosses the threshold.  The final count equals some iteration's starting
count plus the costs of the at most TWO paragraphs (one backward, one
forward) that iteration takes, and that starting count is below 510 unless
the final iteration is the very first one, whose starting count is the
headline's (never dropped even when it alone busts the budget). -/
theorem c6_budget_stop_amended :
    ∀ (tok : String → Nat) (rare : Option (List String))
      (sections : List Sect) (headline : Option Sect) (pos : Nat)
      (out : BuildOut),
      buildContext tok rare sections headline pos = some out →
      ∃ p : LoopState,
        out.n_words = p.n_words +
          beforeCost tok sections (anchorIdx sections) p +
          afterCost tok sections (anchorIdx sections) p ∧
        (p.n_words < 510 ∨ p.n_words = headlineCount tok headline) := by
  intro tok rare sections headline pos out h
  obtain ⟨s, hs, _, hn, _, _⟩ := buildContext_inv h
  obtain ⟨p, hp, hor⟩ := loopGo_last tok rare sections (anchorIdx sections)
    _ _ _ hs
  refine ⟨p, ?_, ?_⟩
  · rw [hn, hp]
    exact loopBody_n_words tok rare sections (anchorIdx sections) p
  · rcases hor with hinit | hlt
    · right
      rw [hinit]
      rfl
    · exact Or.inl hlt

/-- What `buildContext` returns on `secsC6`. -/
def outC6 : BuildOut :=
  { paragraphs := ["A", "B", "C"], names := [[], [], []], nameIndices := [],
    n_words := 1200, before := ["B"], after := ["C"] }

/-- Witness for the amended C6 at a concrete input. -/
theorem c6_budget_stop_amended_witness :
    ∃ p : LoopState,
      outC6.n_words = p.n_words +
        beforeCost tok600 secsC6 (anchorIdx secsC6) p +
        afterCost tok600 secsC6 (anchorIdx secsC6) p ∧
      (p.n_words < 510 ∨ p.n_words = headlineCount tok600 none) :=
  c6_budget_stop_amended tok600 none secsC6 none 2 outC6 rfl

/-! ### Claim theorem: ordering of the context window -/

/-- The backward-collected texts are the texts of a strictly increasing
list of paragraph indices strictly between the anchor `k` (exclusive) and
`pos`, all still above the cursor `i`. -/
def BeforeOrdered (sections : List Sect) (k pos : Nat) (s : LoopState) : Prop :=
  ∃ I : List Nat, I.Chain' (· < ·) ∧
    (∀ m ∈ I, k < m ∧ m < pos ∧ s.i < (m : Int) ∧
      isParIdx sections m = true) ∧
    s.before = I.map (textIdx sections)

/-- The forward-collected texts are the texts of a strictly increasing
list of paragraph indices above both the anchor and `pos`, all below the
cursor `j`. -/
def AfterOrdered (sections : List Sect) (k pos : Nat) (s : LoopState) : Prop :=
  ∃ J : List Nat, J.Chain' (· < ·) ∧
    (∀ m ∈ J, k < m ∧ pos < m ∧ m < sections.length ∧ m < s.j ∧
      isParIdx sections m = true) ∧
    s.after = J.map (textIdx sections)

/-- The loop invariant for the ordering claim. -/
def WindowInv (sections : List Sect) (k pos : Nat) (s : LoopState) : Prop :=
  s.i < (pos : Int) ∧ pos < s.j ∧
    BeforeOrdered sections k pos s ∧ AfterOrdered sections k pos s

/-- One iteration preserves the ordering invariant: a backward take
prepends the (smaller) current index, a forward take appends the (larger)
current index. -/
theorem loopBody_windowInv (tok : String → Nat) (rare : Option (List String))
    (sections : List Sect) (k pos : Nat) (s : LoopState)
    (h : WindowInv sections k pos s) :
    WindowInv sections k pos (loopBody tok rare sections k s) := by
  obtain ⟨hip, hpj, ⟨I, hIc, hIm, hIb⟩, ⟨J, hJc, hJm, hJb⟩⟩ := h
  unfold loopBody
  dsimp only
  split
  next htake =>
    -- backward branch taken at index s.i.toNat
    have hik : (k : Int) < s.i := htake.1
    have hi0 : (0 : Int) ≤ s.i := le_trans (by positivity) (le_of_lt hik)
    split
    next htake2 =>
      refine ⟨by dsimp only; omega, by dsimp only; omega, ?_, ?_⟩
      · refine ⟨s.i.toNat :: I, ?_, ?_, ?_⟩
        · rw [List.chain'_cons']
          refine ⟨?_, hIc⟩
          intro b hb
          have hbI : b ∈ I := List.mem_of_mem_head? hb
          have := (hIm b hbI).2.2.1
          omega
        · intro m hm
          rcases List.mem_cons.mp hm with hm | hm
          · subst hm
            refine ⟨by omega, by omega, by dsimp only; omega, htake.2⟩
          · obtain ⟨h1, h2, h3, h4⟩ := hIm m hm
            exact ⟨h1, h2, by dsimp only; omega, h4⟩
        · dsimp only
          rw [List.map_cons, hIb]
      · refine ⟨J ++ [s.j], ?_, ?_, ?_⟩
        · rw [List.chain'_append]
          refine ⟨hJc, List.chain'_singleton _, ?_⟩
          intro x hx y hy
          have hxJ : x ∈ J := List.mem_of_mem_getLast? hx
          have : y = s.j := by
            simp only [List.head?_cons, Option.mem_def, Option.some.injEq]
              at hy
            omega
          have := (hJm x hxJ).2.2.2.1
          omega
        · intro m hm
          rcases List.mem_append.mp hm with hm | hm
          · obtain ⟨h1, h2, h3, h4, h5⟩ := hJm m hm
            exact ⟨h1, h2, h3, by dsimp only; omega, h5⟩
          · have : m = s.j := by simpa using hm
            subst this
            exact ⟨htake2.1, by omega, htake2.2.1, by dsimp only; omega,
              htake2.2.2⟩
        · dsimp only
          rw [List.map_append, hJb]
          rfl
    next hskip2 =>
      refine ⟨by dsimp only; omega, by dsimp only; omega, ?_, ?_⟩
      · refine ⟨s.i.toNat :: I, ?_, ?_, ?_⟩
        · rw [List.chain'_cons']
          refine ⟨?_, hIc⟩
          intro b hb
          have hbI : b ∈ I := List.mem_of_mem_head? hb
          have := (hIm b hbI).2.2.1
          omega
        · intro m hm
          rcases List.mem_cons.mp hm with hm | hm
          · subst hm
            refine ⟨by omega, by omega, by dsimp only; omega, htake.2⟩
          · obtain ⟨h1, h2, h3, h4⟩ := hIm m hm
            exact ⟨h1, h2, by dsimp only; omega, h4⟩
        · dsimp only
          rw [List.map_cons, hIb]
      · refine ⟨J, hJc, ?_, by dsimp only; exact hJb⟩
        intro m hm
        obtain ⟨h1, h2, h3, h4, h5⟩ := hJm m hm
        exact ⟨h1, h2, h3, by dsimp only; omega, h5⟩
  next hskip =>
    split
    next htake2 =>
      refine ⟨by dsimp only; omega, by dsimp only; omega, ?_, ?_⟩
      · refine ⟨I, hIc, ?_, by dsimp only; exact hIb⟩
        intro m hm
        obtain ⟨h1, h2, h3, h4⟩ := hIm m hm
        exact ⟨h1, h2, by dsimp only; omega, h4⟩
      · refine ⟨J ++ [s.j], ?_, ?_, ?_⟩
        · rw [List.chain'_append]
          refine ⟨hJc, List.chain'_singleton _, ?_⟩
          intro x hx y hy
          have hxJ : x ∈ J := List.mem_of_mem_getLast? hx
          have : y = s.j := by
            simp only [List.head?_cons, Option.mem_def, Option.some.injEq]
              at hy
            omega
          have := (hJm x hxJ).2.2.2.1
          omega
        · intro m hm
          rcases List.mem_append.mp hm with hm | hm
          · obtain ⟨h1, h2, h3, h4, h5⟩ := hJm m hm
            exact ⟨h1, h2, h3, by dsimp only; omega, h5⟩
          · have : m = s.j := by simpa using hm
            subst this
            exact ⟨htake2.1, by omega, htake2.2.1, by dsimp only; omega,
              htake2.2.2⟩
        · dsimp only
          rw [List.map_append, hJb]
          rfl
    next hskip2 =>
      refine ⟨by dsimp only; omega, by dsimp only; omega, ?_, ?_⟩
      · refine ⟨I, hIc, ?_, by dsimp only; exact hIb⟩
        intro m hm
        obtain ⟨h1, h2, h3, h4⟩ := hIm m hm
        exact ⟨h1, h2, by dsimp only; omega, h4⟩
      · refine ⟨J, hJc, ?_, by dsimp only; exact hJb⟩
        intro m hm
        obtain ⟨h1, h2, h3, h4, h5⟩ := hJm m hm
        exact ⟨h1, h2, h3, by dsimp only; omega, h5⟩

/-- The loop preserves the ordering invariant. -/
theorem loopGo_windowInv (tok : String → Nat) (rare : Option (List String))
    (sections : List Sect) (k pos : Nat) :
    ∀ (fuel : Nat) (s r : LoopState),
      loopGo tok rare sections k fuel s = some r →
      WindowInv sections k pos s → WindowInv sections k pos r := by
  intro fuel
  induction fuel with
  | zero => intro s r h; exact absurd h (by simp [loopGo])
  | succ fuel ih =>
      intro s r h hinv
      rw [loopGo] at h
      split at h
      · have := Option.some.inj h
        subst this
        exact loopBody_windowInv tok rare sections k pos s hinv
      · exact ih _ _ h (loopBody_windowInv tok rare sections k pos s hinv)

/-- The initial loop state satisfies the ordering invariant. -/
theorem initState_windowInv (tok : String → Nat) (sections : List Sect)
    (k pos : Nat) (headline : Option Sect) :
    WindowInv sections k pos (initState tok headline pos) := by
  refine ⟨by dsimp only [initState]; omega, by dsimp only [initState]; omega,
    ⟨[], by simp, by simp, rfl⟩, ⟨[], by simp, by simp, rfl⟩⟩

/-- C7: the emitted context paragraph list is the headline (when the
stripped `headline.main` is non-empty), then the anchor paragraph (the
first paragraph-type section of the whole article), then the
backward-collected paragraphs in original article order, then the
forward-collected paragraphs in original article order: the backward and
forward runs are images of strictly increasing index lists drawn from
`(anchor, pos)` and `(pos, len)` respectively. -/
theorem c7_context_ordering :
    ∀ (tok : String → Nat) (rare : Option (List String))
      (sections : List Sect) (headline : Option Sect) (pos : Nat)
      (out : BuildOut),
      buildContext tok rare sections headline pos = some out →
      ∃ I J : List Nat,
        I.Chain' (· < ·) ∧ J.Chain' (· < ·) ∧
        (∀ m ∈ I, anchorIdx sections < m ∧ m < pos ∧
          isParIdx sections m = true) ∧
        (∀ m ∈ J, anchorIdx sections < m ∧ pos < m ∧ m < sections.length ∧
          isParIdx sections m = true) ∧
        out.before = I.map (textIdx sections) ∧
        out.after = J.map (textIdx sections) ∧
        out.paragraphs = (headPars headline ++ anchorPars sections) ++
          out.before ++ out.after := by
  intro tok rare sections headline pos out h
  obtain ⟨s, hs, hpar, _, hb, ha⟩ := buildContext_inv h
  have hinv := loopGo_windowInv tok rare sections (anchorIdx sections) pos
    _ _ _ hs (initState_windowInv tok sections (anchorIdx sections) pos
      headline)
  obtain ⟨_, _, ⟨I, hIc, hIm, hIb⟩, ⟨J, hJc, hJm, hJb⟩⟩ := hinv
  refine ⟨I, J, hIc, hJc, ?_, ?_, ?_, ?_, ?_⟩
  · intro m hm
    obtain ⟨h1, h2, _, h4⟩ := hIm m hm
    exact ⟨h1, h2, h4⟩
  · intro m hm
    obtain ⟨h1, h2, h3, _, h5⟩ := hJm m hm
    exact ⟨h1, h2, h3, h5⟩
  · rw [hb, hIb]
  · rw [ha, hJb]
  · rw [hpar, hb, ha]

/-- The headline section of the end-to-end scenario of the spec. -/
def hlC7 : Sect := ⟨"headline", "X dies", "", []⟩

/-- The section list of the end-to-end scenario: anchor paragraph "A",
the image, then paragraph "B". -/
def secsC7 : List Sect :=
  [⟨"paragraph", "A", "", []⟩, ⟨"image", "cap", "h", []⟩,
   ⟨"paragraph", "B", "", []⟩]

/-- What `buildContext` returns on `secsC7` with the headline present and
character-count tokens. -/
def outC7 : BuildOut :=
  { paragraphs := ["X dies", "A", "B"], names := [[], [], []],
    nameIndices := [], n_words := 7, before := [], after := ["B"] }

/-- Witness for C7: the scenario article yields context
`["X dies", "A", "B"]` — headline, then anchor, then the forward run. -/
theorem c7_context_ordering_witness :
    ∃ I J : List Nat,
      I.Chain' (· < ·) ∧ J.Chain' (· < ·) ∧
      (∀ m ∈ I, anchorIdx secsC7 < m ∧ m < 1 ∧
        isParIdx secsC7 m = true) ∧
      (∀ m ∈ J, anchorIdx secsC7 < m ∧ 1 < m ∧ m < secsC7.length ∧
        isParIdx secsC7 m = true) ∧
      outC7.before = I.map (textIdx secsC7) ∧
      outC7.after = J.map (textIdx secsC7) ∧
      outC7.paragraphs = (headPars (some hlC7) ++ anchorPars secsC7) ++
        outC7.before ++ outC7.after :=
  c7_context_ordering String.length none secsC7 (some hlC7) 1 outC7 (by decide)

/-! ### Claim theorem: soundness and ordering of extracted spans -/

/-- Output spans are disjoint and in strictly increasing start order. -/
def spanLt (a b : Nat × Nat) : Prop := a.2 ≤ b.1 ∧ a.1 < b.1

/-- What one emitted span covers: the token list splits as
`pre ++ run1 ++ run2 ++ t :: post` where `run1 ++ run2` is a maximal run
of consecutive `PROPN` tokens (`pre` ends in a non-`PROPN` token or is
empty, `t` is the non-`PROPN` closer), `run1` is the prefix of
filter-failing tokens, `run2` starts at the first filter-passing token
`h`, and the span runs from `h.start` to the run's last token's stop. -/
def SpanRun (rare : Option (List String)) (toks : List PosTag)
    (sp : Nat × Nat) : Prop :=
  ∃ (pre run1 run2 : List PosTag) (t : PosTag) (post : List PosTag)
    (h e : PosTag),
    toks = pre ++ run1 ++ run2 ++ t :: post ∧
    run2.head? = some h ∧ run2.getLast? = some e ∧
    (∀ x ∈ run1, x.pos = "PROPN" ∧ nameOk rare x.text = false) ∧
    (∀ x ∈ run2, x.pos = "PROPN") ∧
    nameOk rare h.text = true ∧
    t.pos ≠ "PROPN" ∧
    (∀ l, pre.getLast? = some l → l.pos ≠ "PROPN") ∧
    sp = (h.start, e.stop)

/-- The state of an open span: the processed prefix `P` ends in the
pending (not yet closed) proper-noun run. -/
def OpenRun (rare : Option (List String)) (P : List PosTag)
    (s : NameState) : Prop :=
  ∃ (pre run1 run2 : List PosTag) (h e : PosTag),
    P = pre ++ run1 ++ run2 ∧
    run2.head? = some h ∧ run2.getLast? = some e ∧
    (∀ x ∈ run1, x.pos = "PROPN" ∧ nameOk rare x.text = false) ∧
    (∀ x ∈ run2, x.pos = "PROPN") ∧
    nameOk rare h.text = true ∧
    (∀ l, pre.getLast? = some l → l.pos ≠ "PROPN") ∧
    s.start = h.start ∧ s.stop = e.stop

/-- The state of no open span: the processed prefix `P` ends in a possibly
empty run of filter-failing proper nouns after a non-`PROPN` boundary. -/
def ClosedTail (rare : Option (List String)) (P : List PosTag) : Prop :=
  ∃ (pre run1 : List PosTag),
    P = pre ++ run1 ∧
    (∀ x ∈ run1, x.pos = "PROPN" ∧ nameOk rare x.text = false) ∧
    (∀ l, pre.getLast? = some l → l.pos ≠ "PROPN")

/-- The full invariant of the `_get_proper_names` fold, relating the state
`s` to the processed prefix `P` and the remaining tokens `rest`. -/
structure NInv (rare : Option (List String)) (P rest : List PosTag)
    (s : NameState) : Prop where
  spans : ∀ sp ∈ s.acc, SpanRun rare P sp
  openRun : s.isMiddle = true → OpenRun rare P s
  closedTail : s.isMiddle = false → ClosedTail rare P
  posSpans : ∀ sp ∈ s.acc, sp.1 < sp.2
  pairw : s.acc.Pairwise spanLt
  frAcc : ∀ sp ∈ s.acc, ∀ u ∈ rest, sp.2 ≤ u.start
  frOpen : s.isMiddle = true →
    (∀ sp ∈ s.acc, sp.2 ≤ s.start) ∧ s.start < s.stop ∧
      ∀ u ∈ rest, s.stop ≤ u.start

/-- A span decomposition of a prefix is one of any extension. -/
theorem SpanRun.append_right {rare : Option (List String)}
    {P : List PosTag} {sp : Nat × Nat} (hs : SpanRun rare P sp)
    (Q : List PosTag) : SpanRun rare (P ++ Q) sp := by
  obtain ⟨pre, run1, run2, t, post, h, e, hP, rest⟩ := hs
  exact ⟨pre, run1, run2, t, post ++ Q, h, e,
    by rw [hP]; simp [List.append_assoc], rest.1, rest.2.1, rest.2.2.1,
    rest.2.2.2.1, rest.2.2.2.2.1, rest.2.2.2.2.2.1, rest.2.2.2.2.2.2.1,
    rest.2.2.2.2.2.2.2⟩

/-- In a chain of non-overlapping positive-length tokens, the head's stop
bounds every later token's start. -/
theorem chain_start_le :
    ∀ (rest' : List PosTag) (t : PosTag),
      List.Chain' (fun a b => a.stop ≤ b.start) (t :: rest') →
      (∀ u ∈ rest', u.start < u.stop) →
      ∀ u ∈ rest', t.stop ≤ u.start := by
  intro rest'
  induction rest' with
  | nil => intro t _ _ u hu; exact absurd hu (by simp)
  | cons v rest'' ih =>
      intro t hc hp u hu
      rw [List.chain'_cons] at hc
      rcases List.mem_cons.mp hu with hu | hu
      · subst hu; exact hc.1
      · have hv := hp v (by simp)
        have := ih v hc.2 (fun w hw => hp w (by simp [hw])) u hu
        omega

/-- One step of the fold preserves the invariant. -/
theorem nameInv_step (rare : Option (List String)) (P : List PosTag)
    (t : PosTag) (rest' : List PosTag) (s : NameState)
    (hc : List.Chain' (fun a b => a.stop ≤ b.start) (t :: rest'))
    (hp : ∀ u ∈ t :: rest', u.start < u.stop)
    (inv : NInv rare P (t :: rest') s) :
    NInv rare (P ++ [t]) rest' (nameStep rare s t) := by
  have htpos : t.start < t.stop := hp t (by simp)
  have hfr : ∀ u ∈ rest', t.stop ≤ u.start :=
    chain_start_le rest' t hc (fun u hu => hp u (by simp [hu]))
  by_cases ht : t.pos = "PROPN"
  · rcases hsm : s.isMiddle with _ | _
    · by_cases hok : nameOk rare t.text = true
      · -- PROPN, no open span, filter passes: open a new span
        rw [nameStep_propn_open ht hsm hok]
        obtain ⟨pre, run1, hPd, hrun1, hpre⟩ := inv.closedTail hsm
        refine ⟨?_, ?_, ?_, ?_, ?_, ?_, ?_⟩
        · intro sp hsp
          exact (inv.spans sp hsp).append_right [t]
        · intro _
          refine ⟨pre, run1, [t], t, t, ?_, rfl, rfl, hrun1, ?_, hok, hpre,
            rfl, rfl⟩
          · rw [hPd]
          · intro x hx; rw [List.mem_singleton.mp hx]; exact ht
        · intro hfalse; exact absurd hfalse (by simp)
        · exact inv.posSpans
        · exact inv.pairw
        · intro sp hsp u hu
          exact inv.frAcc sp hsp u (by simp [hu])
        · intro _
          refine ⟨?_, htpos, hfr⟩
          intro sp hsp
          exact inv.frAcc sp hsp t (by simp)
      · -- PROPN, no open span, filter fails: nothing happens
        have hok' : nameOk rare t.text = false := Bool.eq_false_iff.mpr hok
        rw [nameStep_propn_skip ht hsm hok']
        obtain ⟨pre, run1, hPd, hrun1, hpre⟩ := inv.closedTail hsm
        refine ⟨?_, ?_, ?_, ?_, ?_, ?_, ?_⟩
        · intro sp hsp; exact (inv.spans sp hsp).append_right [t]
        · intro hmid; rw [hsm] at hmid; exact absurd hmid (by simp)
        · intro _
          refine ⟨pre, run1 ++ [t], ?_, ?_, hpre⟩
          · rw [hPd]; simp [List.append_assoc]
          · intro x hx
            rcases List.mem_append.mp hx with hx | hx
            · exact hrun1 x hx
            · rw [List.mem_singleton.mp hx]; exact ⟨ht, hok'⟩
        · exact inv.posSpans
        · exact inv.pairw
        · intro sp hsp u hu; exact inv.frAcc sp hsp u (by simp [hu])
        · intro hmid; rw [hsm] at hmid; exact absurd hmid (by simp)
    · -- PROPN while a span is open: extend its end
      rw [nameStep_propn_extend ht hsm]
      obtain ⟨pre, run1, run2, h, e, hPd, hh, he, hrun1, hrun2, hhok, hpre,
        hst, hstp⟩ := inv.openRun hsm
      have hfro := inv.frOpen hsm
      refine ⟨?_, ?_, ?_, ?_, ?_, ?_, ?_⟩
      · intro sp hsp2; exact (inv.spans sp hsp2).append_right [t]
      · intro _
        refine ⟨pre, run1, run2 ++ [t], h, t, ?_, ?_,
          List.getLast?_concat _, hrun1, ?_, hhok, hpre, hst, rfl⟩
        · rw [hPd]; simp [List.append_assoc]
        · cases run2 with
          | nil => simp at hh
          | cons a tl => simpa using hh
        · intro x hx
          rcases List.mem_append.mp hx with hx | hx
          · exact hrun2 x hx
          · rw [List.mem_singleton.mp hx]; exact ht
      · intro hfalse; exact absurd (hsm.symm.trans hfalse) (by simp)
      · exact inv.posSpans
      · exact inv.pairw
      · intro sp hsp2 u hu; exact inv.frAcc sp hsp2 u (by simp [hu])
      · intro _
        refine ⟨hfro.1, ?_, hfr⟩
        have h1 := hfro.2.1
        have h2 := hfro.2.2 t (by simp)
        dsimp only
        omega
  · rcases hsm : s.isMiddle with _ | _
    · -- non-PROPN, no open span: nothing happens
      rw [nameStep_other_skip ht hsm]
      refine ⟨?_, ?_, ?_, ?_, ?_, ?_, ?_⟩
      · intro sp hsp; exact (inv.spans sp hsp).append_right [t]
      · intro hmid; rw [hsm] at hmid; exact absurd hmid (by simp)
      · intro _
        refine ⟨P ++ [t], [], by simp, by simp, ?_⟩
        intro l hl
        rw [List.getLast?_concat] at hl
        exact (Option.some.inj hl) ▸ ht
      · exact inv.posSpans
      · exact inv.pairw
      · intro sp hsp u hu; exact inv.frAcc sp hsp u (by simp [hu])
      · intro hmid; rw [hsm] at hmid; exact absurd hmid (by simp)
    · -- non-PROPN while a span is open: close and flush it
      rw [nameStep_other_close ht hsm]
      obtain ⟨pre, run1, run2, h, e, hPd, hh, he, hrun1, hrun2, hhok, hpre,
        hst, hstp⟩ := inv.openRun hsm
      have hfro := inv.frOpen hsm
      refine ⟨?_, ?_, ?_, ?_, ?_, ?_, ?_⟩
      · intro sp hsp2
        rcases List.mem_append.mp hsp2 with hsp2 | hsp2
        · exact (inv.spans sp hsp2).append_right [t]
        · rw [List.mem_singleton.mp hsp2]
          refine ⟨pre, run1, run2, t, [], h, e, ?_, hh, he, hrun1, hrun2,
            hhok, ht, hpre, ?_⟩
          · rw [hPd]
          · rw [hst, hstp]
      · intro hmid; exact absurd hmid (by simp)
      · intro _
        refine ⟨P ++ [t], [], by simp, by simp, ?_⟩
        intro l hl
        rw [List.getLast?_concat] at hl
        exact (Option.some.inj hl) ▸ ht
      · intro sp hsp2
        rcases List.mem_append.mp hsp2 with hsp2 | hsp2
        · exact inv.posSpans sp hsp2
        · rw [List.mem_singleton.mp hsp2]; exact hfro.2.1
      · rw [List.pairwise_append]
        refine ⟨inv.pairw, List.pairwise_singleton _ _, ?_⟩
        intro a ha b hb
        rw [List.mem_singleton.mp hb]
        have h1 := hfro.1 a ha
        have h2 := inv.posSpans a ha
        exact ⟨h1, by omega⟩
      · intro sp hsp2 u hu
        rcases List.mem_append.mp hsp2 with hsp2 | hsp2
        · exact inv.frAcc sp hsp2 u (by simp [hu])
        · rw [List.mem_singleton.mp hsp2]
          exact hfro.2.2 u (by simp [hu])
      · intro hmid; exact absurd hmid (by simp)

/-- Folding the remaining tokens preserves the invariant to the end. -/
theorem nameInv_foldl (rare : Option (List String)) :
    ∀ (rest P : List PosTag) (s : NameState),
      List.Chain' (fun a b => a.stop ≤ b.start) rest →
      (∀ u ∈ rest, u.start < u.stop) →
      NInv rare P rest s →
      NInv rare (P ++ rest) [] (rest.foldl (nameStep rare) s) := by
  intro rest
  induction rest with
  | nil => intro P s _ _ inv; simpa using inv
  | cons t rest' ih =>
      intro P s hc hp inv
      have hstep := nameInv_step rare P t rest' s hc hp inv
      have := ih (P ++ [t]) (nameStep rare s t) hc.tail
        (fun u hu => hp u (by simp [hu])) hstep
      rw [List.foldl_cons]
      rw [List.append_cons P t rest']
      simpa using this

/-- The initial state satisfies the invariant. -/
theorem nameInv_init (rare : Option (List String)) (toks : List PosTag) :
    NInv rare [] toks ⟨0, 0, false, []⟩ := by
  refine ⟨?_, ?_, ?_, ?_, ?_, ?_, ?_⟩
  · intro sp hsp; exact absurd hsp (by simp)
  · intro hmid; exact absurd hmid (by simp)
  · intro _; exact ⟨[], [], rfl, by simp, by simp⟩
  · intro sp hsp; exact absurd hsp (by simp)
  · exact List.Pairwise.nil
  · intro sp hsp; exact absurd hsp (by simp)
  · intro hmid; exact absurd hmid (by simp)

/-- C3: for token sequences whose character spans are pairwise disjoint
(consecutive `stop <= start`) and of positive length, every output span of
`_get_proper_names` covers the suffix of exactly one maximal consecutive
`PROPN` run starting at its first filter-passing token (the whole run when
no filter is in effect, since `nameOk` is then identically true); the
output spans are pairwise non-overlapping and in strictly increasing start
order. -/
theorem c3_span_extraction_sound :
    ∀ (rare : Option (List String)) (toks : List PosTag),
      List.Chain' (fun a b => a.stop ≤ b.start) toks →
      (∀ u ∈ toks, u.start < u.stop) →
      (∀ sp ∈ properNames rare toks, SpanRun rare toks sp) ∧
      (∀ sp ∈ properNames rare toks, sp.1 < sp.2) ∧
      (properNames rare toks).Pairwise spanLt := by
  intro rare toks hc hp
  have := nameInv_foldl rare toks [] ⟨0, 0, false, []⟩ hc hp
    (nameInv_init rare toks)
  rw [List.nil_append] at this
  exact ⟨this.spans, this.posSpans, this.pairw⟩

/-- Witness for C3 on the "Alice Smith ." tokens with filter `{"Alice"}`. -/
theorem c3_span_extraction_sound_witness :
    (∀ sp ∈ properNames (some ["Alice"]) [aliceTok, smithTok, dotTok],
      SpanRun (some ["Alice"]) [aliceTok, smithTok, dotTok] sp) ∧
    (∀ sp ∈ properNames (some ["Alice"]) [aliceTok, smithTok, dotTok],
      sp.1 < sp.2) ∧
    (properNames (some ["Alice"]) [aliceTok, smithTok, dotTok]).Pairwise
      spanLt :=
  c3_span_extraction_sound (some ["Alice"]) [aliceTok, smithTok, dotTok]
    (by simp [List.chain'_cons, aliceTok, smithTok, dotTok]) (by decide)

end TellSpec
